import Mathlib

/-!
Verification of the bencode codec, metainfo model and network helpers of the
BitTorrent client in this repository.

The definitions below are a shallow embedding of the C sources:
  * src/app/bencode.c   — incremental bencode decoder and encoder
  * src/app/network.c   — tracker response parsing, socket helpers
  * src/app/network.h   — byte-string comparison (bstring_cmp)
  * src/unnamed/part_000 — torrent metainfo construction and peer handshake

Byte buffers are `List Nat` (each element one byte, 0..255).  The C parser's
cursor (`Source.position`) is represented by the remaining suffix of the
input; the number of consumed bytes is the difference of lengths.  Memory
allocation is assumed to succeed, so the C state PARSER_ERR_MEMORY does not
arise.  Reads that the C code performs beyond the end of the supplied input
(undefined behavior in C) are made explicit by the state `PState.oob`.
-/

/-! ## Character classes and strtol (C standard library model) -/

/-- is_digit (bencode.c:266): c is an ASCII decimal digit. -/
def is_digit (c : Nat) : Bool := 48 ≤ c && c ≤ 57

/-- is_bencoded_int (bencode.c:271): c is the byte 'i'. -/
def is_bencoded_int (c : Nat) : Bool := c = 105

/-- isspace of the C locale: space, tab, newline, vertical tab, form feed,
carriage return. -/
def is_space (c : Nat) : Bool := c = 32 || (9 ≤ c && c ≤ 13)

/-- LONG_MAX for the 64-bit long used by strtol. -/
def LONG_MAX : Int := 2 ^ 63 - 1

/-- LONG_MIN for the 64-bit long used by strtol. -/
def LONG_MIN : Int := -(2 ^ 63)

/-- strtol clamps an out-of-range value to LONG_MIN / LONG_MAX. -/
def clampLong (x : Int) : Int := max LONG_MIN (min LONG_MAX x)

/-- The maximal prefix of ASCII digits of a byte list. -/
def takeDigits : List Nat → List Nat
  | [] => []
  | c :: cs => if is_digit c then c :: takeDigits cs else []

/-- The numeric value of a big-endian list of ASCII digits. -/
def digitsVal (l : List Nat) : Nat := l.foldl (fun a d => a * 10 + (d - 48)) 0

/-- Length of the maximal prefix of whitespace bytes. -/
def spacePrefixLen : List Nat → Nat
  | [] => 0
  | c :: cs => if is_space c then spacePrefixLen cs + 1 else 0

/-- Model of C `strtol(nptr, &endptr, 10)` reading from byte list `s`:
skips whitespace, reads an optional sign and a digit run, clamps the value
to the long range.  Returns (value, index of endptr relative to s);
"no conversion" leaves endptr at the start (index 0) and yields 0.
The decoder only calls strtol when a non-digit delimiter (':' or 'e') is
known to occur before the end of the buffer, so the scan never leaves the
supplied bytes. -/
def strtol (s : List Nat) : Int × Nat :=
  let k := spacePrefixLen s
  match s.drop k with
  | [] => (0, 0)
  | c :: s2 =>
    if c = 45 then
      let ds := takeDigits s2
      if ds.length = 0 then (0, 0)
      else (clampLong (-(digitsVal ds : Int)), k + 1 + ds.length)
    else if c = 43 then
      let ds := takeDigits s2
      if ds.length = 0 then (0, 0)
      else (clampLong (digitsVal ds : Int), k + 1 + ds.length)
    else
      let ds := takeDigits (c :: s2)
      if ds.length = 0 then (0, 0)
      else (clampLong (digitsVal ds : Int), k + ds.length)

/-- Decimal ASCII rendering of a natural number, as printed by
sprintf("%li", n) for n ≥ 0 (bencode.c:557, 570). -/
def natDigits (n : Nat) : List Nat :=
  if n < 10 then [n + 48] else natDigits (n / 10) ++ [n % 10 + 48]

/-! ## Bencoded values (bencode.h) -/

/-- The Bencoded tagged union (bencode.h): integer, binary-safe string,
list, dictionary.  The C struct also records `encoded_length`, the number of
source bytes the value occupied; in this embedding that count is recovered
from the decoder's remaining-suffix output, see `decode_bencode`. -/
inductive Bencoded where
  | int (i : Int)
  | str (s : List Nat)
  | list (elems : List Bencoded)
  | dict (elems : List (List Nat × Bencoded))

/-- Parser states (bencode.h): PARSER_SUCCESS, PARSER_ERR_PARTIAL,
PARSER_ERR_SYNTAX.  `oob` marks the places where the C code dereferences a
byte beyond the end of the supplied input (undefined behavior, the C state
then depends on out-of-buffer memory).  `noFuel` is an artifact of the
fuel-indexed embedding; with the fuel used by `decode_bencode` it is never
reached on the inputs considered in the theorems below. -/
inductive PState where
  | ok | more | bad | oob | noFuel
deriving DecidableEq

/-- Result triple of a decoding step: final parser state, remaining input
suffix (the cursor), and the decoded value on success. -/
abbrev DecodeResult := PState × List Nat × Option Bencoded

/-- source_contains (bencode.c:250): whether byte `t` occurs in the
remaining input. -/
def source_contains : List Nat → Nat → Bool
  | [], _ => false
  | c :: cs, t => c = t || source_contains cs t

/-- Embedding of decode_bencoded_string (bencode.c:304).  Requires a ':' in
the remaining input (else PARTIAL), reads the length with strtol, demands
*endptr == ':' (else SYNTAX), moves past the colon, and if fewer than
`length` bytes remain reports PARTIAL, else takes the body bytes.
The C call sites guarantee the first byte is a digit, so the strtol value is
never negative here. -/
def decode_bencoded_string (s : List Nat) : DecodeResult :=
  if source_contains s 58 = false then (.more, s, none)
  else
    let r := strtol s
    match s.drop r.2 with
    | 58 :: afterColon =>
      if (afterColon.length : Int) < r.1 then (.more, afterColon, none)
      else (.ok, afterColon.drop r.1.toNat, some (.str (afterColon.take r.1.toNat)))
    | _ => (.bad, s, none)

/-- Embedding of decode_bencoded_integer (bencode.c:343).  Requires an 'e'
in the remaining input (else PARTIAL), skips the leading 'i', runs strtol,
and reports SYNTAX when no digits were converted or *endptr is not 'e'.
Note that nothing rejects "-0", leading zeros, or whitespace/'+' accepted by
strtol. -/
def decode_bencoded_integer (s : List Nat) : DecodeResult :=
  if source_contains s 101 = false then (.more, s, none)
  else
    match s with
    | [] => (.more, s, none)
    | _ :: t =>
      let r := strtol t
      if r.2 = 0 then (.bad, t, none)
      else
        match t.drop r.2 with
        | 101 :: rest => (.ok, rest, some (.int r.1))
        | _ => (.bad, t, none)

mutual
/-- Embedding of decode_bencode_inner (bencode.c:500).  Reads the dispatch
byte p->src.position[0] — with no bounds check, hence `.oob` on empty
remaining input — and routes to the string/integer/list/dictionary
decoder.  The list and dictionary cases inline decode_bencoded_list
(bencode.c:370) and decode_bencoded_dictionary (bencode.c:415): parser_skip
over the opening byte, then the element loop, then wrapping the collected
elements into the container. -/
def decode_bencode_inner (fuel : Nat) (s : List Nat) : DecodeResult :=
  match s with
  | [] => (.oob, [], none)
  | c :: t =>
    if is_digit c then decode_bencoded_string (c :: t)
    else if is_bencoded_int c then decode_bencoded_integer (c :: t)
    else if c = 108 then
      if _h : fuel = 0 then (.noFuel, c :: t, none)
      else
        match decode_list_items (fuel - 1) t with
        | (st, r, some xs) => (st, r, some (.list xs))
        | (st, r, none) => (st, r, none)
    else if c = 100 then
      if _h : fuel = 0 then (.noFuel, c :: t, none)
      else
        match decode_dict_items (fuel - 1) t with
        | (st, r, some kvs) => (st, r, some (.dict kvs))
        | (st, r, none) => (st, r, none)
    else (.bad, c :: t, none)
termination_by fuel
decreasing_by all_goals omega

/-- The element loop of decode_bencoded_list (bencode.c:385): while the
current byte is not 'e' — a dereference made with no bounds check, hence
`.oob` on empty remaining input — decode one element and push it.  On 'e'
the loop ends and the byte is skipped. -/
def decode_list_items (fuel : Nat) (s : List Nat) :
    PState × List Nat × Option (List Bencoded) :=
  match s with
  | [] => (.oob, [], none)
  | c :: t =>
    if c = 101 then (.ok, t, some [])
    else if _h : fuel = 0 then (.noFuel, c :: t, none)
    else
      match decode_bencode_inner (fuel - 1) (c :: t) with
      | (.ok, s1, some v) =>
        match decode_list_items (fuel - 1) s1 with
        | (st, s2, some vs) => (st, s2, some (v :: vs))
        | (st, s2, none) => (st, s2, none)
      | (st, s1, _) => (st, s1, none)
termination_by fuel
decreasing_by all_goals omega

/-- The entry loop of decode_bencoded_dictionary (bencode.c:428): while the
current byte is not 'e' (same unchecked dereference, hence `.oob`), decode a
key — SYNTAX if it is not a string — then a value, and push the pair.
No ordering or duplicate check is performed on the keys. -/
def decode_dict_items (fuel : Nat) (s : List Nat) :
    PState × List Nat × Option (List (List Nat × Bencoded)) :=
  match s with
  | [] => (.oob, [], none)
  | c :: t =>
    if c = 101 then (.ok, t, some [])
    else if _h : fuel = 0 then (.noFuel, c :: t, none)
    else
      match decode_bencode_inner (fuel - 1) (c :: t) with
      | (.ok, s1, some (.str k)) =>
        match decode_bencode_inner (fuel - 1) s1 with
        | (.ok, s2, some v) =>
          match decode_dict_items (fuel - 1) s2 with
          | (st, s3, some kvs) => (st, s3, some ((k, v) :: kvs))
          | (st, s3, none) => (st, s3, none)
        | (st2, s2, _) => (st2, s2, none)
      | (.ok, s1, some _) => (.bad, s1, none)
      | (st, s1, _) => (st, s1, none)
termination_by fuel
decreasing_by all_goals omega
end

/-- Embedding of decode_bencode (bencode.c:669): parse one value from the
start of the stream.  The C recursion has no fuel; every recursive step of
the C parser consumes input, so `s.length + 1` steps are enough to simulate
it (for the encoded inputs used below this is proved via `fuelB_le`).
The consumed-byte count — the C `encoded_length` — is `s.length` minus the
length of the returned suffix. -/
def decode_bencode (s : List Nat) : DecodeResult :=
  decode_bencode_inner (s.length + 1) s

/-! ## Bencode encoder (bencode.c:553-630, 700) -/

mutual
/-- Embedding of route_bencode (bencode.c:607) together with encode_string
(bencode.c:553), encode_integer (bencode.c:567): the emitted bytes.
encode_string writes sprintf("%li:") then the raw body; encode_integer
writes sprintf("i%lie"). -/
def route_bencode : Bencoded → List Nat
  | .int i => 105 :: (if i < 0 then 45 :: natDigits i.natAbs else natDigits i.toNat) ++ [101]
  | .str s => natDigits s.length ++ 58 :: s
  | .list xs => 108 :: encode_list_items xs ++ [101]
  | .dict kvs => 100 :: encode_dict_entries kvs ++ [101]

/-- The element loop of encode_list (bencode.c:574): each element in order. -/
def encode_list_items : List Bencoded → List Nat
  | [] => []
  | x :: xs => route_bencode x ++ encode_list_items xs

/-- The entry loop of encode_dict (bencode.c:588): each key is wrapped into
a STRING Bencoded and routed through the string encoder, then the value. -/
def encode_dict_entries : List (List Nat × Bencoded) → List Nat
  | [] => []
  | (k, v) :: kvs => route_bencode (.str k) ++ route_bencode v ++ encode_dict_entries kvs
end

/-- Embedding of encode_bencode (bencode.c:700): after route_bencode writes
`nbytes` bytes, `target[nbytes] = 0` is written and `nbytes` returned.
Result: (bytes written by route_bencode, index of the terminating zero
write, which equals the returned count). -/
def encode_bencode (v : Bencoded) : List Nat × Nat :=
  (route_bencode v, (route_bencode v).length)

/-- hash_bencoded (network.c:24) allocates `malloc(b->encoded_length)`
bytes — exactly the recorded encoded length, with no room for the
terminating zero byte of encode_bencode — before encoding into it. -/
def hash_bencoded_buf (encoded_length : Nat) : Nat := encoded_length

/-! ## Well-formed bencode (spec grammar, section 4.2) -/

/-- Strict lexicographic byte order on byte strings (the "ascending by byte
comparison" order of the bencode grammar; a proper prefix is smaller). -/
def lexLtBytes : List Nat → List Nat → Bool
  | [], [] => false
  | [], _ :: _ => true
  | _ :: _, [] => false
  | a :: as, b :: bs => a < b || (a = b && lexLtBytes as bs)

/-- Consecutive keys strictly ascending in lexicographic byte order. -/
def keysAscending : List (List Nat) → Bool
  | [] => true
  | [_] => true
  | a :: b :: rest => lexLtBytes a b && keysAscending (b :: rest)

mutual
/-- Structural well-formedness of a value tree, mirroring the spec grammar
of section 4.2 except for dictionary key ordering (checked separately by
`keys_sorted_value`): integers fit in a signed 64-bit long, string bytes
are bytes and string lengths fit in a long. -/
def wf_value : Bencoded → Bool
  | .int i => LONG_MIN ≤ i && i ≤ LONG_MAX
  | .str s => (s.length : Int) ≤ LONG_MAX && s.all (· < 256)
  | .list xs => wf_items xs
  | .dict kvs => wf_entries kvs

/-- Well-formedness of list elements. -/
def wf_items : List Bencoded → Bool
  | [] => true
  | x :: xs => wf_value x && wf_items xs

/-- Well-formedness of dictionary entries: each key is a well-formed string
and each value a well-formed tree. -/
def wf_entries : List (List Nat × Bencoded) → Bool
  | [] => true
  | (k, v) :: kvs => wf_value (.str k) && wf_value v && wf_entries kvs
end

mutual
/-- Every dictionary in the tree has strictly ascending keys. -/
def keys_sorted_value : Bencoded → Bool
  | .int _ => true
  | .str _ => true
  | .list xs => keys_sorted_items xs
  | .dict kvs => keysAscending (kvs.map Prod.fst) && keys_sorted_entries kvs

/-- Key sortedness inside list elements. -/
def keys_sorted_items : List Bencoded → Bool
  | [] => true
  | x :: xs => keys_sorted_value x && keys_sorted_items xs

/-- Key sortedness inside dictionary values. -/
def keys_sorted_entries : List (List Nat × Bencoded) → Bool
  | [] => true
  | (_, v) :: kvs => keys_sorted_value v && keys_sorted_entries kvs
end

/-- A tree is well-formed in the sense of the spec grammar (section 4.2)
when it is structurally well-formed and all dictionary keys are strictly
ascending.  The well-formed bencode byte strings are exactly the
route_bencode images of these trees. -/
def wfB (v : Bencoded) : Bool := wf_value v && keys_sorted_value v

/-! ## Byte-string comparison (bstring_cmp, src/app/network.h:193) -/

/-- Conversion of an integer value to the C int (32-bit two's complement),
as gcc performs it for the return value of bstring_cmp. -/
def toInt32 (x : Int) : Int := (x + 2 ^ 31) % 2 ^ 32 - 2 ^ 31

/-- Model of C memcmp on byte buffers of equal length: 0 when equal, else
the difference of the first differing bytes read as unsigned char (glibc's
return value; only the sign is specified by C). -/
def memcmp : List Nat → List Nat → Int
  | [], _ => 0
  | _, [] => 0
  | x :: xs, y :: ys => if x = y then memcmp xs ys else (x : Int) - y

/-- Embedding of bstring_cmp (src/app/network.h:193): when the sizes
differ, it returns `bstr1->size - bstr2->size` — a size_t subtraction whose
wrapped value is converted to int; only buffers of equal size are compared
bytewise with memcmp. -/
def bstring_cmp (a b : List Nat) : Int :=
  if a.length ≠ b.length then toInt32 ((a.length : Int) - b.length)
  else memcmp a b

/-- Specification comparison (spec section 4.1): byte-wise lexicographic
with length as tiebreaker — sign given by the first differing byte, a
proper prefix compares less. -/
def lex_cmp_spec : List Nat → List Nat → Int
  | [], [] => 0
  | [], _ :: _ => -1
  | _ :: _, [] => 1
  | x :: xs, y :: ys => if x < y then -1 else if y < x then 1 else lex_cmp_spec xs ys

/-! ## Torrent metainfo model (src/unnamed/part_000, torrent.h) -/

/-- DEFAULT_BLOCK_SIZE (torrent.h:19): 16 KiB. -/
def DEFAULT_BLOCK_SIZE : Nat := 16384

/-- SHA_DIGEST_LENGTH: 20 bytes. -/
def SHA_DIGEST_LENGTH : Nat := 20

/-- Block (torrent.h:30): size and offset inside the piece; the data
pointer is absent until the block is downloaded and plays no role here. -/
structure Block where
  size : Nat
  offset : Nat
deriving DecidableEq

/-- Piece (torrent.h:36).  blocks_received starts at 0 and is omitted. -/
structure Piece where
  index : Nat
  size : Nat
  hash : List Nat
  block_count : Nat
  blocks : List Block
deriving DecidableEq

/-- TorrentFile (torrent.h:45). The C name field is a C string copy of the
name bytes; it is kept here as the raw bytes. -/
structure TorrentFile where
  num_pieces : Nat
  file_size : Nat
  piece_length : Nat
  name : List Nat
  pieces : List Piece
deriving DecidableEq

/-- Embedding of piece_init_blocks (src/unnamed/part_000:259):
block_count = size/16384 rounded up; blocks 0..block_count-2 have size
16384 and offset i*16384; the last block gets REMAINDER_OR_FULL(size,
16384) and offset (block_count-1)*16384.  For size = 0 the C code computes
block_count = 0 and then writes blocks[block_count - 1], i.e.
blocks[SIZE_MAX]: undefined behavior, embedded as `none`. -/
def piece_init_blocks (sz : Nat) : Option (Nat × List Block) :=
  let bc := if sz % DEFAULT_BLOCK_SIZE = 0 then sz / DEFAULT_BLOCK_SIZE
            else sz / DEFAULT_BLOCK_SIZE + 1
  if bc = 0 then none
  else some (bc,
    (List.range (bc - 1)).map
      (fun i => { offset := i * DEFAULT_BLOCK_SIZE, size := DEFAULT_BLOCK_SIZE }) ++
    [{ offset := (bc - 1) * DEFAULT_BLOCK_SIZE,
       size := if sz % DEFAULT_BLOCK_SIZE = 0 then DEFAULT_BLOCK_SIZE
               else sz % DEFAULT_BLOCK_SIZE }])

/-- The C loops of this module abort and return NULL as soon as one step
fails; collecting results with early exit is that control flow. -/
def option_map_all : List α → (α → Option β) → Option (List β)
  | [], _ => some []
  | a :: l, f =>
    match f a with
    | none => none
    | some b =>
      match option_map_all l f with
      | none => none
      | some bs => some (b :: bs)

/-- Embedding of torrent_file_attach_pieces (src/unnamed/part_000:199):
requires the pieces string length to be a multiple of 20; num_pieces is its
length / 20.  Pieces 0..num_pieces-2 get size piece_length; the last piece
gets REMAINDER_OR_FULL(file_size, piece_length); each piece's hash is the
20-byte slice at index*20, and piece_init_blocks fills its blocks.
Undefined C behavior is embedded as `none`: num_pieces = 0 makes the code
write pieces[SIZE_MAX], and piece_length = 0 makes REMAINDER_OR_FULL divide
by zero. -/
def torrent_file_attach_pieces (file_size piece_length : Nat) (ph : List Nat) :
    Option (Nat × List Piece) :=
  if (ph.length % SHA_DIGEST_LENGTH = 0) = false then none
  else
    let n := ph.length / SHA_DIGEST_LENGTH
    if n = 0 then none
    else if piece_length = 0 then none
    else
      let mk := fun (i : Nat) (sz : Nat) =>
        (piece_init_blocks sz).map (fun bb =>
          ({ index := i, size := sz, hash := (ph.drop (i * SHA_DIGEST_LENGTH)).take SHA_DIGEST_LENGTH,
             block_count := bb.1, blocks := bb.2 } : Piece))
      match option_map_all (List.range (n - 1)) (fun i => mk i piece_length) with
      | none => none
      | some front =>
        match mk (n - 1)
            (if file_size % piece_length = 0 then piece_length
             else file_size % piece_length) with
        | none => none
        | some last => some (n, front ++ [last])

/-- get_dict_key (bencode.c:677): linear search for the first entry whose
key equals the search bytes exactly (bstring_cmp_cstr == 0 is size equality
plus bytewise equality); NULL when the value is not a dictionary. -/
def get_dict_key (b : Bencoded) (key : List Nat) : Option Bencoded :=
  match b with
  | .dict kvs => (kvs.find? (fun kv => kv.1 = key)).map Prod.snd
  | _ => none

/-- Conversion of a C long value to size_t (the assignments
file->file_size = length->data.integer etc. in src/unnamed/part_000). -/
def sizeTofLong (i : Int) : Nat := (i % 2 ^ 64).toNat

/-- The bytes of "length". -/
def lengthKey : List Nat := [108, 101, 110, 103, 116, 104]

/-- The bytes of "name". -/
def nameKey : List Nat := [110, 97, 109, 101]

/-- The bytes of "piece length". -/
def pieceLengthKey : List Nat := [112, 105, 101, 99, 101, 32, 108, 101, 110, 103, 116, 104]

/-- The bytes of "pieces". -/
def piecesKey : List Nat := [112, 105, 101, 99, 101, 115]

/-- The bytes of "info". -/
def infoKey : List Nat := [105, 110, 102, 111]

/-- Embedding of torrent_file_from_bcoded (src/unnamed/part_000:109) and
the four attach helpers: "length" must be an INTEGER, "name" a STRING,
"piece length" an INTEGER, "pieces" a STRING; then
torrent_file_attach_pieces builds the piece array. -/
def torrent_file_from_bcoded (info : Bencoded) : Option TorrentFile :=
  match get_dict_key info lengthKey with
  | some (.int len) =>
    match get_dict_key info nameKey with
    | some (.str nm) =>
      match get_dict_key info pieceLengthKey with
      | some (.int pl) =>
        match get_dict_key info piecesKey with
        | some (.str ph) =>
          match torrent_file_attach_pieces (sizeTofLong len) (sizeTofLong pl) ph with
          | some np =>
            some { num_pieces := np.1, file_size := sizeTofLong len,
                   piece_length := sizeTofLong pl, name := nm, pieces := np.2 }
          | none => none
        | _ => none
      | _ => none
    | _ => none
  | _ => none

/-- Embedding of torrent_file_new (src/unnamed/part_000:80): decode the
metainfo bytes, look up "info" (must be a dictionary), and build the
TorrentFile from it. -/
def torrent_file_new (s : List Nat) : Option TorrentFile :=
  match decode_bencode s with
  | (.ok, _, some v) =>
    match get_dict_key v infoKey with
    | some info =>
      match info with
      | .dict kvs => torrent_file_from_bcoded (.dict kvs)
      | _ => none
    | none => none
  | _ => none

/-- ceil(a / b), piece and block count arithmetic of the spec. -/
def ceil_div (a b : Nat) : Nat := (a + b - 1) / b

/-- Sum of the piece sizes of a metainfo. -/
def sum_piece_sizes (ps : List Piece) : Nat := (ps.map Piece.size).sum

/-- Sum of the block sizes of a piece. -/
def sum_block_sizes (bs : List Block) : Nat := (bs.map Block.size).sum

/-! ## Compact peer list (src/app/network.c:301, 338) -/

/-- IP_V4_MAX_LENGTH (network.h:19): 15 bytes, the snprintf bound used for
the dotted-decimal rendering. -/
def IP_V4_MAX_LENGTH : Nat := 15

/-- Peer (network.h:23): rendered IP bytes and port. -/
structure Peer where
  ip : List Nat
  port : Nat
deriving DecidableEq

/-- peers_list_is_valid (network.c:301): the peers string length is
divisible by 6. -/
def peers_list_is_valid (raw : List Nat) : Bool := raw.length % 6 = 0

/-- The dotted-decimal rendering "%u.%u.%u.%u" of four octets. -/
def dotted_quad (a b c d : Nat) : List Nat :=
  natDigits a ++ 46 :: natDigits b ++ 46 :: natDigits c ++ 46 :: natDigits d

/-- Model of `snprintf(buf, IP_V4_MAX_LENGTH, "%u.%u.%u.%u", ...)`
(network.c:380): when the rendering fits in 14 characters it is stored
whole, else only its first 14 characters plus the terminating NUL are
stored; the return value is always the full rendering length.  The result
is (bytes occupying the first `return value` positions of the buffer,
return value) — the C code then sets ip->size to the return value. -/
def snprintf_ip (a b c d : Nat) : List Nat × Nat :=
  let s := dotted_quad a b c d
  if s.length + 1 ≤ IP_V4_MAX_LENGTH then (s, s.length)
  else (s.take (IP_V4_MAX_LENGTH - 1) ++ [0], s.length)

/-- One iteration of the loop of put_peers_in_tracker_res (network.c:359):
render the IP of the first four bytes, read the port as big-endian from the
last two. -/
def put_peer_group (b0 b1 b2 b3 b4 b5 : Nat) : Peer :=
  { ip := (snprintf_ip b0 b1 b2 b3).1, port := b4 * 256 + b5 }

/-- The loop of put_peers_in_tracker_res: one peer per 6 bytes, in order.
The caller guarantees the length is a multiple of 6, so the catch-all arm
is never hit on valid input. -/
def put_peers_loop : List Nat → List Peer
  | b0 :: b1 :: b2 :: b3 :: b4 :: b5 :: rest =>
    put_peer_group b0 b1 b2 b3 b4 b5 :: put_peers_loop rest
  | _ => []

/-- Embedding of put_peers_in_tracker_res (network.c:338): a peers string
whose length is not a multiple of 6 sets dest->ok = false (`none`);
otherwise the parsed peers land in the response in order. -/
def put_peers_in_tracker_res (raw : List Nat) : Option (List Peer) :=
  if (raw.length % 6 = 0) = false then none
  else some (put_peers_loop raw)

/-- Specification rendering of a compact peer list (spec section 4.7 step
7): one (dotted-decimal IP, big-endian port) pair per 6-byte group, order
preserved.  This is the refinement target put_peers_in_tracker_res is
compared against. -/
def spec_compact_peers : List Nat → List (List Nat × Nat)
  | b0 :: b1 :: b2 :: b3 :: b4 :: b5 :: rest =>
    (dotted_quad b0 b1 b2 b3, b4 * 256 + b5) :: spec_compact_peers rest
  | _ => []

/-- The per-group side condition under which the snprintf bound does not
truncate: every group's dotted-decimal rendering fits in 14 characters. -/
def small_ips : List Nat → Bool
  | b0 :: b1 :: b2 :: b3 :: _ :: _ :: rest =>
    ((dotted_quad b0 b1 b2 b3).length + 1 ≤ IP_V4_MAX_LENGTH) && small_ips rest
  | _ => true

/-! ## Peer handshake (src/unnamed/part_000:348, torrent.h:61) -/

/-- The bytes of "BitTorrent protocol". -/
def protocol_name : List Nat :=
  [66, 105, 116, 84, 111, 114, 114, 101, 110, 116, 32, 112, 114, 111, 116, 111, 99,
   111, 108]

/-- Peer_Header_BitTorrent (torrent.h:61): the packed 68-byte handshake
frame: pstrlen (1 byte), proto_name (19), reserved (8), info_hash (20),
peer_id (20). -/
structure Peer_Header_BitTorrent where
  pstrlen : Nat
  proto_name : List Nat
  reserved : List Nat
  info_hash : List Nat
  peer_id : List Nat
deriving DecidableEq

/-- The 68 received bytes reinterpreted as the packed header struct. -/
def read_peer_header (bytes : List Nat) : Peer_Header_BitTorrent :=
  { pstrlen := bytes.headD 0
  , proto_name := (bytes.drop 1).take 19
  , reserved := (bytes.drop 20).take 8
  , info_hash := (bytes.drop 28).take 20
  , peer_id := (bytes.drop 48).take 20 }

/-- Embedding of the receive/validate phase of handshake
(src/unnamed/part_000:348) as a function of the 68 bytes that
read_socket_exact placed in the header struct: the only check performed is
memcmp(header->proto_name, "BitTorrent protocol", 19); on mismatch NULL is
returned, otherwise the whole received header — pstrlen, reserved,
info_hash and peer_id taken as received, without comparison. -/
def handshake (received : List Nat) : Option Peer_Header_BitTorrent :=
  let h := read_peer_header received
  if h.proto_name = protocol_name then some h else none

/-! ## Exact socket read (src/app/network.c:534) -/

/-- Outcome of the read_socket_exact loop under a given finite trace of
recv return values. -/
inductive ReadOutcome where
  /-- The loop collected n bytes and returned b_read. -/
  | done (total : Nat)
  /-- recv returned a negative value; the function returns -1. -/
  | fail
  /-- All supplied recv results were consumed and the loop is still
  running with b_read bytes collected — in particular recv returning 0
  (EOF) keeps the loop running forever. -/
  | looping (b_read : Nat)
deriving DecidableEq

/-- Embedding of read_socket_exact (network.c:534).  `recvs` lists the
successive return values of recv(socket, buffer + b_read, n - b_read, 0):
negative on error, 0 at EOF, else the number of bytes received (at most the
requested n - b_read).  The C loop runs `while (b_read < n)`, returns -1 on
a negative recv, and adds the received count otherwise — a zero-byte read
changes nothing and the loop retries. -/
def read_socket_exact (recvs : List Int) (n : Nat) (b_read : Nat) : ReadOutcome :=
  if b_read < n then
    match recvs with
    | [] => .looping b_read
    | r :: rest =>
      if r < 0 then .fail
      else read_socket_exact rest n (b_read + r.toNat)
  else .done b_read

/-! ## Fuel accounting for the embedded decoder

The C parser has no fuel; its recursion terminates because every step
consumes input.  The fuel functions below give, per value, an amount of
fuel under which the embedded decoder behaves exactly like the C code on
that value's encoding; `fuelB_le` bounds it by the encoding length, which
justifies the `s.length + 1` fuel used by `decode_bencode`. -/

mutual
/-- Fuel sufficient for decode_bencode_inner on this value's encoding. -/
def fuelB : Bencoded → Nat
  | .int _ => 0
  | .str _ => 0
  | .list xs => 1 + fuelL xs
  | .dict kvs => 1 + fuelD kvs

/-- Fuel sufficient for decode_list_items on these elements' encodings. -/
def fuelL : List Bencoded → Nat
  | [] => 0
  | x :: xs => 1 + max (fuelB x) (fuelL xs)

/-- Fuel sufficient for decode_dict_items on these entries' encodings. -/
def fuelD : List (List Nat × Bencoded) → Nat
  | [] => 0
  | (k, v) :: kvs => 1 + max (fuelB (.str k)) (max (fuelB v) (fuelD kvs))
end

/-! ## Decimal digit lemmas -/

theorem natDigits_ne_nil (n : Nat) : natDigits n ≠ [] := by
  rw [natDigits]
  split <;> simp

theorem natDigits_all_digits (n : Nat) : ∀ d ∈ natDigits n, is_digit d = true := by
  induction n using Nat.strong_induction_on with
  | _ n ih =>
    rw [natDigits]
    split
    · intro d hd
      simp at hd
      subst hd
      simp [is_digit]
      omega
    · intro d hd
      simp at hd
      rcases hd with hd | hd
      · exact ih (n / 10) (Nat.div_lt_self (by omega) (by omega)) d hd
      · subst hd
        simp [is_digit]
        omega

theorem digitsVal_append (l : List Nat) (d : Nat) :
    digitsVal (l ++ [d]) = digitsVal l * 10 + (d - 48) := by
  simp [digitsVal, List.foldl_append]

theorem digitsVal_natDigits (n : Nat) : digitsVal (natDigits n) = n := by
  induction n using Nat.strong_induction_on with
  | _ n ih =>
    rw [natDigits]
    split
    · simp [digitsVal]
    · rw [digitsVal_append, ih (n / 10) (Nat.div_lt_self (by omega) (by omega))]
      omega

/-! ## strtol characterization on canonical inputs -/

theorem is_space_of_digit {c : Nat} (h : is_digit c = true) : is_space c = false := by
  simp [is_digit] at h
  simp [is_space]
  omega

theorem takeDigits_digits_append (ds : List Nat) (hds : ∀ d ∈ ds, is_digit d = true)
    {c : Nat} (hc : is_digit c = false) (t : List Nat) :
    takeDigits (ds ++ c :: t) = ds := by
  induction ds with
  | nil => simp [takeDigits, hc]
  | cons d ds ih =>
    have h1 : is_digit d = true := hds d (by simp)
    have h2 := ih (fun x hx => hds x (by simp [hx]))
    simp [takeDigits, h1, h2]

theorem source_contains_of_mem {l : List Nat} {x : Nat} (h : x ∈ l) :
    source_contains l x = true := by
  induction l with
  | nil => simp at h
  | cons c cs ih =>
    rcases List.mem_cons.mp h with h | h
    · simp [source_contains, h]
    · simp [source_contains, ih h]

theorem clampLong_eq {x : Int} (h1 : LONG_MIN ≤ x) (h2 : x ≤ LONG_MAX) :
    clampLong x = x := by
  simp only [clampLong]
  omega

theorem spacePrefixLen_digit {d : Nat} (hd : is_digit d = true) (t : List Nat) :
    spacePrefixLen (d :: t) = 0 := by
  simp [spacePrefixLen, is_space_of_digit hd]

/-- strtol on a canonical digit run followed by a non-digit delimiter. -/
theorem strtol_natDigits (n : Nat) (hn : (n : Int) ≤ LONG_MAX)
    {c : Nat} (hc : is_digit c = false) (t : List Nat) :
    strtol (natDigits n ++ c :: t) = ((n : Int), (natDigits n).length) := by
  have htd : takeDigits (natDigits n ++ c :: t) = natDigits n :=
    takeDigits_digits_append _ (natDigits_all_digits n) hc t
  have hval : digitsVal (natDigits n) = n := digitsVal_natDigits n
  have hclamp : clampLong (n : Int) = n :=
    clampLong_eq (by simp [LONG_MIN]; omega) hn
  cases hnd : natDigits n with
  | nil => exact absurd hnd (natDigits_ne_nil n)
  | cons d ds =>
    have hdd : is_digit d = true := natDigits_all_digits n d (by rw [hnd]; simp)
    have hsp : is_space d = false := is_space_of_digit hdd
    have hd45 : ¬d = 45 := by simp [is_digit] at hdd; omega
    have hd43 : ¬d = 43 := by simp [is_digit] at hdd; omega
    rw [hnd] at htd hval
    simp only [List.cons_append] at htd
    rw [strtol]
    simp [spacePrefixLen, hsp, hd45, hd43, htd, hval, hclamp, hnd]

/-- strtol on a minus sign, a canonical digit run and a non-digit
delimiter. -/
theorem strtol_neg_natDigits (m : Nat) (hm : -(m : Int) ≥ LONG_MIN)
    {c : Nat} (hc : is_digit c = false) (t : List Nat) :
    strtol (45 :: natDigits m ++ c :: t) = (-(m : Int), 1 + (natDigits m).length) := by
  have htd : takeDigits (natDigits m ++ c :: t) = natDigits m :=
    takeDigits_digits_append _ (natDigits_all_digits m) hc t
  have h45 : is_space 45 = false := by simp [is_space]
  have hclamp : clampLong (-(m : Int)) = -(m : Int) :=
    clampLong_eq hm (by simp [LONG_MAX]; omega)
  rw [strtol]
  simp [spacePrefixLen, h45, htd, natDigits_ne_nil m, digitsVal_natDigits, hclamp]

/-! ## Decoding canonically encoded values -/

theorem is_digit_58 : is_digit 58 = false := by simp [is_digit]

theorem is_digit_101 : is_digit 101 = false := by simp [is_digit]

/-- decode_bencoded_string succeeds on a canonical string encoding and
consumes exactly the encoding. -/
theorem decode_string_encode (body rest : List Nat)
    (h : (body.length : Int) ≤ LONG_MAX) :
    decode_bencoded_string (natDigits body.length ++ 58 :: (body ++ rest)) =
      (.ok, rest, some (.str body)) := by
  have hcont : source_contains (natDigits body.length ++ 58 :: (body ++ rest)) 58 = true :=
    source_contains_of_mem (by simp)
  have hst := strtol_natDigits body.length h is_digit_58 (body ++ rest)
  rw [decode_bencoded_string]
  rw [hcont]
  simp only [Bool.true_eq_false, if_false, hst]
  rw [List.drop_left]
  simp [List.take_left, List.drop_left]

/-- decode_bencoded_integer succeeds on a canonical integer encoding
(sprintf "i%lie") and consumes exactly the encoding. -/
theorem decode_integer_encode (i : Int) (rest : List Nat)
    (h1 : LONG_MIN ≤ i) (h2 : i ≤ LONG_MAX) :
    decode_bencoded_integer
        (105 :: (if i < 0 then 45 :: natDigits i.natAbs else natDigits i.toNat) ++
          101 :: rest) =
      (.ok, rest, some (.int i)) := by
  by_cases hneg : i < 0
  · have habs : (i.natAbs : Int) = -i := Int.ofNat_natAbs_of_nonpos (le_of_lt hneg)
    have hm : -(i.natAbs : Int) ≥ LONG_MIN := by
      rw [habs]
      simp [LONG_MIN] at h1 ⊢
      omega
    have hst := strtol_neg_natDigits i.natAbs hm is_digit_101 rest
    have hcont : source_contains
        (105 :: (45 :: natDigits i.natAbs) ++ 101 :: rest) 101 = true :=
      source_contains_of_mem (by simp)
    rw [if_pos hneg]
    rw [decode_bencoded_integer.eq_def]
    rw [hcont]
    simp only [Bool.true_eq_false, if_false, List.cons_append, List.append_assoc]
    simp only [List.cons_append] at hst
    rw [hst]
    simp only []
    rw [if_neg (by omega)]
    have hdrop : (45 :: (natDigits i.natAbs ++ 101 :: rest)).drop
        (1 + (natDigits i.natAbs).length) = 101 :: rest := by
      rw [Nat.add_comm, List.drop_succ_cons, List.drop_left]
    rw [hdrop]
    have : -(i.natAbs : Int) = i := by rw [habs]; omega
    rw [this]
  · have hst := strtol_natDigits i.toNat (by omega) is_digit_101 rest
    have hcont : source_contains
        (105 :: natDigits i.toNat ++ 101 :: rest) 101 = true :=
      source_contains_of_mem (by simp)
    rw [if_neg hneg]
    rw [decode_bencoded_integer.eq_def]
    rw [hcont]
    simp only [Bool.true_eq_false, if_false, List.cons_append]
    rw [hst]
    simp only []
    rw [if_neg (by simp [natDigits_ne_nil])]
    rw [List.drop_left]
    have : (i.toNat : Int) = i := by omega
    rw [this]


theorem route_bencode_length_ge_two (v : Bencoded) : 2 ≤ (route_bencode v).length := by
  cases v with
  | int i => rw [route_bencode]; simp
  | str s =>
    rw [route_bencode]
    cases hnd : natDigits s.length with
    | nil => exact absurd hnd (natDigits_ne_nil _)
    | cons d ds => simp; omega
  | list xs => rw [route_bencode]; simp
  | dict kvs => rw [route_bencode]; simp

/-- The first byte of any encoding, and the fact that it is never 'e'. -/
theorem route_bencode_head (v : Bencoded) :
    ∃ c t, route_bencode v = c :: t ∧ c ≠ 101 := by
  cases v with
  | int i =>
    refine ⟨105, (if i < 0 then 45 :: natDigits i.natAbs else natDigits i.toNat) ++ [101],
      ?_, by omega⟩
    rw [route_bencode]
    simp
  | str s =>
    cases hnd : natDigits s.length with
    | nil => exact absurd hnd (natDigits_ne_nil _)
    | cons d ds =>
      have hdd : is_digit d = true := natDigits_all_digits s.length d (by rw [hnd]; simp)
      refine ⟨d, ds ++ 58 :: s, ?_, ?_⟩
      · rw [route_bencode, hnd]
        simp
      · simp [is_digit] at hdd
        omega
  | list xs =>
    refine ⟨108, encode_list_items xs ++ [101], ?_, by omega⟩
    rw [route_bencode]
    simp
  | dict kvs =>
    refine ⟨100, encode_dict_entries kvs ++ [101], ?_, by omega⟩
    rw [route_bencode]
    simp

mutual
theorem fuelB_le (v : Bencoded) : fuelB v + 1 ≤ (route_bencode v).length := by
  cases v with
  | int i =>
    rw [fuelB, route_bencode]
    simp
  | str s =>
    rw [fuelB]
    have := route_bencode_length_ge_two (.str s)
    omega
  | list xs =>
    rw [fuelB, route_bencode]
    have := fuelL_le xs
    simp
    omega
  | dict kvs =>
    rw [fuelB, route_bencode]
    have := fuelD_le kvs
    simp
    omega
termination_by sizeOf v

theorem fuelL_le (xs : List Bencoded) : fuelL xs ≤ (encode_list_items xs).length := by
  cases xs with
  | nil => rw [fuelL, encode_list_items]; simp
  | cons x xs =>
    rw [fuelL, encode_list_items]
    have h1 := fuelB_le x
    have h2 := fuelL_le xs
    have h3 := route_bencode_length_ge_two x
    simp
    omega
termination_by sizeOf xs

theorem fuelD_le (kvs : List (List Nat × Bencoded)) :
    fuelD kvs ≤ (encode_dict_entries kvs).length := by
  cases kvs with
  | nil => rw [fuelD, encode_dict_entries]; simp
  | cons kv kvs =>
    obtain ⟨k, v⟩ := kv
    rw [fuelD, encode_dict_entries]
    have h1 := fuelB_le (.str k)
    have h2 := fuelB_le v
    have h3 := fuelD_le kvs
    have h4 := route_bencode_length_ge_two (.str k)
    have h5 : fuelB (.str k) = 0 := by rw [fuelB]
    simp
    omega
termination_by sizeOf kvs
end

/-! ## One-step characterizations of the decoder -/

theorem inner_dispatch_str {c : Nat} (hc : is_digit c = true) (fuel : Nat) (t : List Nat) :
    decode_bencode_inner fuel (c :: t) = decode_bencoded_string (c :: t) := by
  rw [decode_bencode_inner]
  rw [if_pos hc]

theorem inner_dispatch_int (fuel : Nat) (t : List Nat) :
    decode_bencode_inner fuel (105 :: t) = decode_bencoded_integer (105 :: t) := by
  rw [decode_bencode_inner]
  simp [is_digit, is_bencoded_int]

theorem inner_list_ok (fuel : Nat) (hf : fuel ≠ 0) {t r : List Nat} {xs : List Bencoded}
    (h : decode_list_items (fuel - 1) t = (.ok, r, some xs)) :
    decode_bencode_inner fuel (108 :: t) = (.ok, r, some (.list xs)) := by
  rw [decode_bencode_inner]
  simp [is_digit, is_bencoded_int, hf, h]

theorem inner_dict_ok (fuel : Nat) (hf : fuel ≠ 0) {t r : List Nat}
    {kvs : List (List Nat × Bencoded)}
    (h : decode_dict_items (fuel - 1) t = (.ok, r, some kvs)) :
    decode_bencode_inner fuel (100 :: t) = (.ok, r, some (.dict kvs)) := by
  rw [decode_bencode_inner]
  simp [is_digit, is_bencoded_int, hf, h]

theorem items_nil (fuel : Nat) (rest : List Nat) :
    decode_list_items fuel (101 :: rest) = (.ok, rest, some []) := by
  rw [decode_list_items.eq_def]
  simp

theorem items_step_ok (fuel : Nat) (hf : fuel ≠ 0) {c : Nat} (hc : c ≠ 101)
    {t s1 s2 : List Nat} {v : Bencoded} {vs : List Bencoded}
    (hinner : decode_bencode_inner (fuel - 1) (c :: t) = (.ok, s1, some v))
    (hrest : decode_list_items (fuel - 1) s1 = (.ok, s2, some vs)) :
    decode_list_items fuel (c :: t) = (.ok, s2, some (v :: vs)) := by
  rw [decode_list_items.eq_def]
  simp [hc, hf, hinner, hrest]

theorem entries_nil (fuel : Nat) (rest : List Nat) :
    decode_dict_items fuel (101 :: rest) = (.ok, rest, some []) := by
  rw [decode_dict_items.eq_def]
  simp

theorem entries_step_ok (fuel : Nat) (hf : fuel ≠ 0) {c : Nat} (hc : c ≠ 101)
    {t s1 s2 s3 : List Nat} {k : List Nat} {v : Bencoded}
    {kvs : List (List Nat × Bencoded)}
    (hkey : decode_bencode_inner (fuel - 1) (c :: t) = (.ok, s1, some (.str k)))
    (hval : decode_bencode_inner (fuel - 1) s1 = (.ok, s2, some v))
    (hrest : decode_dict_items (fuel - 1) s2 = (.ok, s3, some kvs)) :
    decode_dict_items fuel (c :: t) = (.ok, s3, some ((k, v) :: kvs)) := by
  rw [decode_dict_items.eq_def]
  simp [hc, hf, hkey, hval, hrest]

/-! ## Round trip: decoding an encoding gives back the value -/

/-- Main round-trip induction, over a bound on the value size: the decoder
inverts the encoder on structurally well-formed values, for any trailing
bytes and any sufficient fuel, consuming exactly the encoding.  Dictionary
entries are returned in encounter order; no key ordering is required. -/
theorem bencode_roundtrip_aux (N : Nat) :
    (∀ v : Bencoded, sizeOf v ≤ N → wf_value v = true → ∀ fuel : Nat, fuelB v ≤ fuel →
      ∀ rest : List Nat,
        decode_bencode_inner fuel (route_bencode v ++ rest) = (.ok, rest, some v)) ∧
    (∀ xs : List Bencoded, sizeOf xs ≤ N → wf_items xs = true → ∀ fuel : Nat,
      fuelL xs ≤ fuel → ∀ rest : List Nat,
        decode_list_items fuel (encode_list_items xs ++ 101 :: rest) =
          (.ok, rest, some xs)) ∧
    (∀ kvs : List (List Nat × Bencoded), sizeOf kvs ≤ N → wf_entries kvs = true →
      ∀ fuel : Nat, fuelD kvs ≤ fuel → ∀ rest : List Nat,
        decode_dict_items fuel (encode_dict_entries kvs ++ 101 :: rest) =
          (.ok, rest, some kvs)) := by
  induction N using Nat.strong_induction_on with
  | _ N ih =>
    refine ⟨?_, ?_, ?_⟩
    · intro v hN hwf fuel hfuel rest
      cases v with
      | int i =>
        rw [wf_value] at hwf
        simp only [Bool.and_eq_true, decide_eq_true_eq] at hwf
        rw [route_bencode]
        have hshape :
            (105 :: (if i < 0 then 45 :: natDigits i.natAbs else natDigits i.toNat) ++
                [101]) ++ rest
              = 105 :: ((if i < 0 then 45 :: natDigits i.natAbs else natDigits i.toNat) ++
                  101 :: rest) := by
          simp
        rw [hshape, inner_dispatch_int]
        exact decode_integer_encode i rest hwf.1 hwf.2
      | str s =>
        rw [wf_value] at hwf
        simp only [Bool.and_eq_true, decide_eq_true_eq] at hwf
        obtain ⟨c, t, hct, -⟩ := route_bencode_head (.str s)
        have hc : is_digit c = true := by
          have h2 : route_bencode (.str s) = c :: t := hct
          rw [route_bencode] at h2
          cases hnd : natDigits s.length with
          | nil => exact absurd hnd (natDigits_ne_nil _)
          | cons d ds =>
            rw [hnd] at h2
            have hd : d = c := by
              have h3 := congrArg List.head? h2
              simpa using h3
            subst hd
            exact natDigits_all_digits s.length d (by rw [hnd]; simp)
        have hct' : route_bencode (.str s) ++ rest = c :: (t ++ rest) := by
          rw [hct]
          simp
        have hshape : route_bencode (.str s) ++ rest =
            natDigits s.length ++ 58 :: (s ++ rest) := by
          rw [route_bencode]
          simp
        rw [hct', inner_dispatch_str hc, ← hct', hshape]
        exact decode_string_encode s rest hwf.1
      | list xs =>
        rw [wf_value] at hwf
        rw [fuelB] at hfuel
        have hspec : sizeOf (Bencoded.list xs) = 1 + sizeOf xs := by simp
        have hsize : sizeOf xs < N := by omega
        have hshape : route_bencode (.list xs) ++ rest =
            108 :: (encode_list_items xs ++ 101 :: rest) := by
          rw [route_bencode]
          simp
        rw [hshape]
        exact inner_list_ok fuel (by omega)
          ((ih (sizeOf xs) hsize).2.1 xs le_rfl hwf (fuel - 1) (by omega) rest)
      | dict kvs =>
        rw [wf_value] at hwf
        rw [fuelB] at hfuel
        have hspec : sizeOf (Bencoded.dict kvs) = 1 + sizeOf kvs := by simp
        have hsize : sizeOf kvs < N := by omega
        have hshape : route_bencode (.dict kvs) ++ rest =
            100 :: (encode_dict_entries kvs ++ 101 :: rest) := by
          rw [route_bencode]
          simp
        rw [hshape]
        exact inner_dict_ok fuel (by omega)
          ((ih (sizeOf kvs) hsize).2.2 kvs le_rfl hwf (fuel - 1) (by omega) rest)
    · intro xs hN hwf fuel hfuel rest
      cases xs with
      | nil =>
        rw [encode_list_items]
        rw [List.nil_append]
        exact items_nil fuel rest
      | cons x xs =>
        rw [wf_items] at hwf
        simp only [Bool.and_eq_true] at hwf
        rw [fuelL] at hfuel
        have hspec : sizeOf (x :: xs) = 1 + sizeOf x + sizeOf xs := by simp
        obtain ⟨c, t, hct, hc101⟩ := route_bencode_head x
        have hshape : encode_list_items (x :: xs) ++ 101 :: rest =
            c :: (t ++ (encode_list_items xs ++ 101 :: rest)) := by
          rw [encode_list_items, hct]
          simp
        have hinner : decode_bencode_inner (fuel - 1)
            (c :: (t ++ (encode_list_items xs ++ 101 :: rest))) =
            (.ok, encode_list_items xs ++ 101 :: rest, some x) := by
          have hx : c :: (t ++ (encode_list_items xs ++ 101 :: rest)) =
              route_bencode x ++ (encode_list_items xs ++ 101 :: rest) := by
            rw [hct]
            simp
          rw [hx]
          exact (ih (sizeOf x) (by omega)).1 x le_rfl hwf.1 (fuel - 1) (by omega) _
        rw [hshape]
        exact items_step_ok fuel (by omega) hc101 hinner
          ((ih (sizeOf xs) (by omega)).2.1 xs le_rfl hwf.2 (fuel - 1) (by omega) rest)
    · intro kvs hN hwf fuel hfuel rest
      cases kvs with
      | nil =>
        rw [encode_dict_entries]
        rw [List.nil_append]
        exact entries_nil fuel rest
      | cons kv kvs =>
        obtain ⟨k, v⟩ := kv
        rw [wf_entries] at hwf
        simp only [Bool.and_eq_true] at hwf
        rw [fuelD] at hfuel
        have hspec : sizeOf ((k, v) :: kvs) = 1 + (1 + sizeOf k + sizeOf v) + sizeOf kvs := by
          simp
        have hspecK : sizeOf (Bencoded.str k) = 1 + sizeOf k := by simp
        obtain ⟨c, t, hct, hc101⟩ := route_bencode_head (.str k)
        have hshape : encode_dict_entries ((k, v) :: kvs) ++ 101 :: rest =
            c :: (t ++ (route_bencode v ++ (encode_dict_entries kvs ++ 101 :: rest))) := by
          rw [encode_dict_entries, hct]
          simp
        have hkey : decode_bencode_inner (fuel - 1)
            (c :: (t ++ (route_bencode v ++ (encode_dict_entries kvs ++ 101 :: rest)))) =
            (.ok, route_bencode v ++ (encode_dict_entries kvs ++ 101 :: rest),
              some (.str k)) := by
          have hx : c :: (t ++ (route_bencode v ++ (encode_dict_entries kvs ++ 101 :: rest))) =
              route_bencode (.str k) ++
                (route_bencode v ++ (encode_dict_entries kvs ++ 101 :: rest)) := by
            rw [hct]
            simp
          rw [hx]
          exact (ih (sizeOf (Bencoded.str k)) (by omega)).1 (.str k) le_rfl hwf.1.1
            (fuel - 1) (by rw [fuelB]; omega) _
        have hval : decode_bencode_inner (fuel - 1)
            (route_bencode v ++ (encode_dict_entries kvs ++ 101 :: rest)) =
            (.ok, encode_dict_entries kvs ++ 101 :: rest, some v) :=
          (ih (sizeOf v) (by omega)).1 v le_rfl hwf.1.2 (fuel - 1) (by omega) _
        rw [hshape]
        exact entries_step_ok fuel (by omega) hc101 hkey hval
          ((ih (sizeOf kvs) (by omega)).2.2 kvs le_rfl hwf.2 (fuel - 1) (by omega) rest)

/-- decode_bencode_inner inverts route_bencode on structurally well-formed
values. -/
theorem decode_inner_encode (v : Bencoded) (hwf : wf_value v = true) (fuel : Nat)
    (hfuel : fuelB v ≤ fuel) (rest : List Nat) :
    decode_bencode_inner fuel (route_bencode v ++ rest) = (.ok, rest, some v) :=
  (bencode_roundtrip_aux (sizeOf v)).1 v le_rfl hwf fuel hfuel rest

/-- decode_bencode inverts route_bencode on structurally well-formed values:
SUCCESS, the whole input consumed (encoded_length = input length), and the
same tree returned.  Dictionary entries come back in encounter order. -/
theorem decode_route_bencode (v : Bencoded) (hwf : wf_value v = true) :
    decode_bencode (route_bencode v) = (.ok, [], some v) := by
  rw [decode_bencode]
  have h1 : route_bencode v = route_bencode v ++ [] := by simp
  rw [h1]
  apply decode_inner_encode v hwf
  have := fuelB_le v
  simp
  omega

/-! ## Claim theorems: bencode codec -/

/-- C1: Round trip.  A well-formed bencode input B — precisely the encoding
of a tree satisfying the spec grammar of section 4.2 (wfB: canonical
integers in long range, byte-valued strings, ascending dictionary keys) —
decodes with PARSER_SUCCESS consuming all of B (remaining suffix empty, so
the recorded encoded_length is B's length); re-encoding the resulting tree
with route_bencode (the byte-writing core of encode_bencode) reproduces B
byte-exactly, and decoding the encoder's output returns the equal tree. -/
theorem bencode_roundtrip_wellformed (B : List Nat)
    (hB : ∃ w, wfB w = true ∧ B = route_bencode w) :
    ∃ v, decode_bencode B = (.ok, [], some v) ∧ route_bencode v = B ∧
      decode_bencode (route_bencode v) = (.ok, [], some v) := by
  obtain ⟨w, hwf, rfl⟩ := hB
  rw [wfB, Bool.and_eq_true] at hwf
  exact ⟨w, decode_route_bencode w hwf.1, rfl, decode_route_bencode w hwf.1⟩

/-- Witness for C1 at the concrete well-formed input "i42e". -/
theorem bencode_roundtrip_wellformed_witness :
    ∃ v, decode_bencode [105, 52, 50, 101] = (.ok, [], some v) ∧
      route_bencode v = [105, 52, 50, 101] ∧
      decode_bencode (route_bencode v) = (.ok, [], some v) :=
  bencode_roundtrip_wellformed [105, 52, 50, 101]
    ⟨.int 42, by simp [wfB, wf_value, keys_sorted_value, LONG_MIN, LONG_MAX],
      by simp [route_bencode, natDigits]⟩

/-- C2: decoding the prefix "l" of the well-formed input "le" makes
decode_bencoded_list's loop condition dereference the byte one past the end
of the supplied input (state `.oob`, undefined behavior in C), instead of
returning PARTIAL; the full input decodes fine.  The C result on the
truncated prefix depends on whatever byte sits beyond the buffer. -/
theorem decode_prefix_reads_past_end :
    decode_bencode [108, 101] = (.ok, [], some (.list [])) ∧
    decode_bencode [108] = (.oob, [], none) := by
  constructor
  · simp [decode_bencode, decode_bencode_inner, decode_list_items, is_digit,
      is_bencoded_int]
  · simp [decode_bencode, decode_bencode_inner, decode_list_items, is_digit,
      is_bencoded_int]

/-- C3: the integer grammar checks of the claim are absent from
decode_bencoded_integer: "i-0e" decodes to PARSER_SUCCESS with value 0 and
"i03e" to PARSER_SUCCESS with value 3 — not PARSER_ERR_SYNTAX as the claim
(and BEP-3, as the spec notes) requires. -/
theorem decode_integer_accepts_noncanonical :
    decode_bencode [105, 45, 48, 101] = (.ok, [], some (.int 0)) ∧
    decode_bencode [105, 48, 51, 101] = (.ok, [], some (.int 3)) := by
  constructor <;>
    simp [decode_bencode, decode_bencode_inner, decode_bencoded_integer,
      source_contains, strtol, spacePrefixLen, is_space, takeDigits, is_digit,
      is_bencoded_int, digitsVal, clampLong, LONG_MAX, LONG_MIN]

/-- C4 counterexample: the input "d1:b0:1:a0:e", whose keys "b", "a" are
not ascending, is decoded with PARSER_SUCCESS — not rejected with
PARSER_ERR_SYNTAX as the claim states — and the produced dictionary's keys
are not ascending by byte comparison. -/
theorem decode_dict_accepts_unsorted_keys :
    decode_bencode [100, 49, 58, 98, 48, 58, 49, 58, 97, 48, 58, 101] =
      (.ok, [], some (.dict [([98], .str []), ([97], .str [])])) ∧
    keysAscending [[98], [97]] = false := by
  constructor
  · simp [decode_bencode, decode_bencode_inner, decode_dict_items,
      decode_bencoded_string, source_contains, strtol, spacePrefixLen, is_space,
      takeDigits, is_digit, is_bencoded_int, digitsVal, clampLong, LONG_MAX, LONG_MIN]
  · simp [keysAscending, lexLtBytes]

/-- C4 amended: the decoder imposes no ordering or duplicate check on
dictionary keys; any sequence of string-keyed entries — ascending or not,
duplicates included — decodes with PARSER_SUCCESS, and the produced
dictionary preserves the keys in encounter order. -/
theorem decode_dict_preserves_encounter_order (kvs : List (List Nat × Bencoded))
    (hwf : wf_entries kvs = true) :
    decode_bencode (route_bencode (.dict kvs)) = (.ok, [], some (.dict kvs)) := by
  apply decode_route_bencode
  rw [wf_value]
  exact hwf

/-- Witness for the amended C4 at a dictionary with descending keys. -/
theorem decode_dict_preserves_encounter_order_witness :
    decode_bencode (route_bencode (.dict [([98], .str []), ([97], .str [])])) =
      (.ok, [], some (.dict [([98], .str []), ([97], .str [])])) :=
  decode_dict_preserves_encounter_order [([98], .str []), ([97], .str [])]
    (by simp [wf_entries, wf_value, LONG_MAX])

/-- C10: encode_bencode writes its terminating zero byte at the index equal
to its returned byte count, one past the encoded output; for a tree decoded
from a well-formed input the recorded encoded_length equals that count, and
hash_bencoded allocates exactly encoded_length bytes, so the terminating
write targets an index outside that buffer (index = buffer size). -/
theorem encode_bencode_terminator_out_of_buffer (w : Bencoded) (hwf : wfB w = true) :
    ∃ v, decode_bencode (route_bencode w) = (.ok, [], some v) ∧
      (encode_bencode v).2 = hash_bencoded_buf (route_bencode w).length ∧
      ¬ (encode_bencode v).2 < hash_bencoded_buf (route_bencode w).length := by
  rw [wfB, Bool.and_eq_true] at hwf
  refine ⟨w, decode_route_bencode w hwf.1, rfl, ?_⟩
  simp [encode_bencode, hash_bencoded_buf]

/-- Witness for C10 at the concrete tree decoded from "2:hi". -/
theorem encode_bencode_terminator_out_of_buffer_witness :
    ∃ v, decode_bencode (route_bencode (.str [104, 105])) = (.ok, [], some v) ∧
      (encode_bencode v).2 = hash_bencoded_buf (route_bencode (.str [104, 105])).length ∧
      ¬ (encode_bencode v).2 <
          hash_bencoded_buf (route_bencode (.str [104, 105])).length :=
  encode_bencode_terminator_out_of_buffer (.str [104, 105])
    (by simp [wfB, wf_value, keys_sorted_value, LONG_MAX])

/-! ## Claim theorems: handshake and socket read -/

/-- C6 counterexample: a received 68-byte frame with pstrlen = 0 but a
matching proto_name is accepted — handshake returns the record although the
claimed pstrlen == 19 check fails, because the code never compares
pstrlen. -/
theorem handshake_accepts_bad_pstrlen :
    handshake (0 :: protocol_name ++ List.replicate 48 7) =
      some { pstrlen := 0, proto_name := protocol_name,
             reserved := List.replicate 8 7, info_hash := List.replicate 20 7,
             peer_id := List.replicate 20 7 } ∧
    (0 : Nat) ≠ 19 := by
  constructor
  · decide
  · decide

/-- C6 amended: handshake returns a record exactly when the received bytes
at offsets 1..19 equal "BitTorrent protocol" — pstrlen is not validated —
and on success the returned record carries the received pstrlen and the
remote peer_id (bytes 48..67) back to the caller. -/
theorem handshake_validates_only_proto_name (received : List Nat) :
    (handshake received = none ↔ (received.drop 1).take 19 ≠ protocol_name) ∧
    (∀ h, handshake received = some h →
      h.pstrlen = received.headD 0 ∧ h.proto_name = protocol_name ∧
      h.peer_id = (received.drop 48).take 20) := by
  constructor
  · by_cases hp : (received.drop 1).take 19 = protocol_name <;>
      simp [handshake, read_peer_header, hp]
  · intro h hh
    by_cases hp : received.tail.take 19 = protocol_name
    · simp [handshake, read_peer_header, hp] at hh
      subst hh
      refine ⟨?_, rfl, rfl⟩
      cases received <;> simp
    · simp [handshake, read_peer_header, hp] at hh

/-- Witness for the amended C6 at a correct 68-byte frame. -/
theorem handshake_validates_only_proto_name_witness :
    ({ pstrlen := 19, proto_name := protocol_name,
       reserved := List.replicate 8 3, info_hash := List.replicate 20 3,
       peer_id := List.replicate 20 3 : Peer_Header_BitTorrent }).pstrlen =
        (19 :: protocol_name ++ List.replicate 48 3).headD 0 ∧
    ({ pstrlen := 19, proto_name := protocol_name,
       reserved := List.replicate 8 3, info_hash := List.replicate 20 3,
       peer_id := List.replicate 20 3 : Peer_Header_BitTorrent }).proto_name =
        protocol_name ∧
    ({ pstrlen := 19, proto_name := protocol_name,
       reserved := List.replicate 8 3, info_hash := List.replicate 20 3,
       peer_id := List.replicate 20 3 : Peer_Header_BitTorrent }).peer_id =
        ((19 :: protocol_name ++ List.replicate 48 3).drop 48).take 20 :=
  (handshake_validates_only_proto_name (19 :: protocol_name ++ List.replicate 48 3)).2
    _ (by decide)

/-- C7: read_socket_exact loops recv until n bytes are collected (short
nonzero reads are not errors) and a negative recv is an error, but a
zero-byte read (EOF) is NOT reported as an error: any number of zero reads
leaves the loop running with b_read unchanged — in C the recv loop never
terminates at EOF. -/
theorem read_socket_exact_zero_read_never_errors :
    (∀ k : Nat, read_socket_exact (List.replicate k 0) 68 0 = .looping 0) ∧
    read_socket_exact [2, -1] 68 0 = .fail ∧
    read_socket_exact [60, 8] 68 0 = .done 68 := by
  refine ⟨?_, by decide, by decide⟩
  intro k
  induction k with
  | zero => decide
  | succ k ih =>
    rw [List.replicate_succ, read_socket_exact]
    simpa using ih

/-! ## Claim theorems: byte-buffer comparison -/

/-- C9 counterexample: bstring_cmp("b", "aa") returns a negative value
(length difference 1 - 2), while byte-wise lexicographic comparison of "b"
and "aa" is positive ('b' = 98 > 'a' = 97 at the first byte).  The claimed
lexicographic behavior fails whenever the lengths differ. -/
theorem bstring_cmp_length_first_counterexample :
    bstring_cmp [98] [97, 97] = -1 ∧ lex_cmp_spec [98] [97, 97] = 1 := by
  constructor
  · decide
  · decide

theorem toInt32_eq {x : Int} (h1 : -(2 ^ 31) ≤ x) (h2 : x < 2 ^ 31) : toInt32 x = x := by
  rw [toInt32]
  have h3 : (x + 2 ^ 31) % 2 ^ 32 = x + 2 ^ 31 :=
    Int.emod_eq_of_lt (by omega) (by omega)
  omega

theorem memcmp_lex_sign (a : List Nat) : ∀ b : List Nat, a.length = b.length →
    (memcmp a b = 0 ↔ lex_cmp_spec a b = 0) ∧
    (memcmp a b < 0 ↔ lex_cmp_spec a b < 0) ∧
    (0 < memcmp a b ↔ 0 < lex_cmp_spec a b) := by
  induction a with
  | nil =>
    intro b hb
    cases b with
    | nil => simp [memcmp, lex_cmp_spec]
    | cons y ys => simp at hb
  | cons x xs ih =>
    intro b hb
    cases b with
    | nil => simp at hb
    | cons y ys =>
      simp only [List.length_cons, Nat.add_right_cancel_iff] at hb
      by_cases hxy : x = y
      · subst hxy
        have hrec := ih ys hb
        simp [memcmp, lex_cmp_spec, hrec]
      · rcases Nat.lt_or_ge x y with hlt | hge
        · simp [memcmp, lex_cmp_spec, hxy, hlt]
          omega
        · have hgt : y < x := by omega
          simp [memcmp, lex_cmp_spec, hxy, hgt, Nat.not_lt.mpr hge]
          omega

/-- C9 amended: bstring_cmp compares lengths first — buffers of different
lengths compare by length alone (the shorter is less), regardless of
content — and only equal-length buffers are compared bytewise, where the
sign agrees with lexicographic comparison by first differing byte.  The
length bound keeps the C size_t-to-int conversion of the length difference
from wrapping. -/
theorem bstring_cmp_length_then_bytes (a b : List Nat)
    (ha : a.length < 2 ^ 31) (hb : b.length < 2 ^ 31) :
    (a.length < b.length → bstring_cmp a b < 0) ∧
    (b.length < a.length → 0 < bstring_cmp a b) ∧
    (a.length = b.length →
      ((bstring_cmp a b = 0 ↔ lex_cmp_spec a b = 0) ∧
       (bstring_cmp a b < 0 ↔ lex_cmp_spec a b < 0) ∧
       (0 < bstring_cmp a b ↔ 0 < lex_cmp_spec a b))) := by
  refine ⟨?_, ?_, ?_⟩
  · intro hlt
    rw [bstring_cmp, if_pos (by omega)]
    rw [toInt32_eq (by omega) (by omega)]
    omega
  · intro hlt
    rw [bstring_cmp, if_pos (by omega)]
    rw [toInt32_eq (by omega) (by omega)]
    omega
  · intro heq
    rw [bstring_cmp, if_neg (by omega)]
    exact memcmp_lex_sign a b heq

/-- Witness for the amended C9 at the buffers "ab" and "ba". -/
theorem bstring_cmp_length_then_bytes_witness :
    (([97, 98] : List Nat).length < ([98, 97] : List Nat).length →
      bstring_cmp [97, 98] [98, 97] < 0) ∧
    (([98, 97] : List Nat).length < ([97, 98] : List Nat).length →
      0 < bstring_cmp [97, 98] [98, 97]) ∧
    (([97, 98] : List Nat).length = ([98, 97] : List Nat).length →
      ((bstring_cmp [97, 98] [98, 97] = 0 ↔ lex_cmp_spec [97, 98] [98, 97] = 0) ∧
       (bstring_cmp [97, 98] [98, 97] < 0 ↔ lex_cmp_spec [97, 98] [98, 97] < 0) ∧
       (0 < bstring_cmp [97, 98] [98, 97] ↔ 0 < lex_cmp_spec [97, 98] [98, 97]))) :=
  bstring_cmp_length_then_bytes [97, 98] [98, 97] (by decide) (by decide)

/-! ## Claim theorems: compact peer list -/

/-- C8 counterexample: the 6-byte group FF FF FF FF 1A E1 is parsed, but
the stored IP is not the dotted-decimal rendering "255.255.255.255":
snprintf's IP_V4_MAX_LENGTH = 15 bound truncates the 15-character rendering
to 14 characters plus a NUL byte, and the size is set to the full 15. -/
theorem put_peers_truncates_wide_ip :
    put_peers_in_tracker_res [255, 255, 255, 255, 26, 225] =
      some [{ ip := [50, 53, 53, 46, 50, 53, 53, 46, 50, 53, 53, 46, 50, 53, 0],
              port := 6881 }] ∧
    [50, 53, 53, 46, 50, 53, 53, 46, 50, 53, 53, 46, 50, 53, 0] ≠
      dotted_quad 255 255 255 255 := by
  constructor
  · simp [put_peers_in_tracker_res, put_peers_loop, put_peer_group, snprintf_ip,
      dotted_quad, natDigits, IP_V4_MAX_LENGTH]
  · simp [dotted_quad, natDigits]

theorem put_peers_loop_spec : ∀ raw : List Nat, small_ips raw = true →
    (put_peers_loop raw).map (fun p => (p.ip, p.port)) = spec_compact_peers raw
  | [], _ => rfl
  | [_], _ => rfl
  | [_, _], _ => rfl
  | [_, _, _], _ => rfl
  | [_, _, _, _], _ => rfl
  | [_, _, _, _, _], _ => rfl
  | b0 :: b1 :: b2 :: b3 :: b4 :: b5 :: rest, hs => by
    simp only [small_ips, Bool.and_eq_true] at hs
    rw [put_peers_loop, spec_compact_peers]
    simp only [List.map_cons, List.cons.injEq]
    constructor
    · have h1 : (dotted_quad b0 b1 b2 b3).length + 1 ≤ IP_V4_MAX_LENGTH := by
        have := hs.1
        simpa using this
      simp [put_peer_group, snprintf_ip, if_pos h1]
    · exact put_peers_loop_spec rest hs.2

/-- C8 amended: a peers string whose length is not a multiple of 6 makes
the response a failure; otherwise the parser produces one peer per 6-byte
group, preserving order, with the port taken big-endian from the last two
bytes, and with the IP stored as the dotted-decimal rendering of the first
four bytes whenever that rendering fits the snprintf bound of 14 characters
(it is truncated to 14 characters plus a NUL byte exactly when all four
octets need three digits). -/
theorem put_peers_compact_parsing (raw : List Nat) :
    (¬ raw.length % 6 = 0 → put_peers_in_tracker_res raw = none) ∧
    (raw.length % 6 = 0 → small_ips raw = true →
      ∃ ps, put_peers_in_tracker_res raw = some ps ∧
        ps.map (fun p => (p.ip, p.port)) = spec_compact_peers raw) := by
  constructor
  · intro h
    simp [put_peers_in_tracker_res, h]
  · intro h6 hsmall
    refine ⟨put_peers_loop raw, ?_, put_peers_loop_spec raw hsmall⟩
    simp [put_peers_in_tracker_res, h6]

/-- Witness for the amended C8 at the claim's bytes \x0A\x00\x00\x01\x1A\xE1:
the single parsed peer renders IP 10.0.0.1 with port 0x1AE1 = 6881. -/
theorem put_peers_compact_parsing_witness :
    ∃ ps, put_peers_in_tracker_res [10, 0, 0, 1, 26, 225] = some ps ∧
      ps.map (fun p => (p.ip, p.port)) = spec_compact_peers [10, 0, 0, 1, 26, 225] :=
  (put_peers_compact_parsing [10, 0, 0, 1, 26, 225]).2 (by decide)
    (by simp [small_ips, dotted_quad, natDigits, IP_V4_MAX_LENGTH])

/-! ## Piece and block layout lemmas -/

theorem option_map_all_eq_some {α β : Type _} (f : α → Option β) (g : α → β) :
    ∀ l : List α, (∀ a ∈ l, f a = some (g a)) → option_map_all l f = some (l.map g) := by
  intro l
  induction l with
  | nil => intro _; rfl
  | cons a l ih =>
    intro h
    rw [option_map_all]
    rw [h a (by simp), ih (fun x hx => h x (by simp [hx]))]
    simp

theorem sum_map_const_range (m d : Nat) : (((List.range m).map (fun _ => d)).sum) = m * d := by
  induction m with
  | zero => simp
  | succ m ih =>
    rw [List.range_succ]
    simp [ih]
    ring

theorem ceil_div_eq (T L : Nat) (hL : 0 < L) :
    ceil_div T L = if T % L = 0 then T / L else T / L + 1 := by
  rw [ceil_div]
  have hmod := Nat.mod_lt T hL
  have hdm := Nat.div_add_mod T L
  generalize hq : T / L = q at *
  generalize hr : T % L = r at *
  generalize hu : L * q = u at *
  have h3 : q * L = u := by rw [Nat.mul_comm]; exact hu
  split
  · rename_i h0
    subst h0
    have h1 : T + L - 1 = (L - 1) + q * L := by omega
    rw [h1, Nat.add_mul_div_right _ _ hL, Nat.div_eq_of_lt (by omega)]
    omega
  · rename_i h0
    have h1 : T + L - 1 = (r - 1) + (q + 1) * L := by
      have h2 : (q + 1) * L = q * L + L := by ring
      omega
    rw [h1, Nat.add_mul_div_right _ _ hL, Nat.div_eq_of_lt (by omega)]
    omega

theorem blocks_shape_spec (m lastSz : Nat) :
    ((List.range m).map
        (fun i => ({ offset := i * 16384, size := 16384 } : Block)) ++
      [({ offset := m * 16384, size := lastSz } : Block)]).length = m + 1 ∧
    sum_block_sizes
        ((List.range m).map
            (fun i => ({ offset := i * 16384, size := 16384 } : Block)) ++
          [({ offset := m * 16384, size := lastSz } : Block)]) = m * 16384 + lastSz ∧
    (∀ b ∈ ((List.range m).map
        (fun i => ({ offset := i * 16384, size := 16384 } : Block)) ++
      [({ offset := m * 16384, size := lastSz } : Block)]).take m, b.size = 16384) ∧
    (∀ j, ∀ hj : j < ((List.range m).map
        (fun i => ({ offset := i * 16384, size := 16384 } : Block)) ++
      [({ offset := m * 16384, size := lastSz } : Block)]).length,
      (((List.range m).map
          (fun i => ({ offset := i * 16384, size := 16384 } : Block)) ++
        [({ offset := m * 16384, size := lastSz } : Block)]).get ⟨j, hj⟩).offset =
        j * 16384) := by
  set front := (List.range m).map
      (fun i => ({ offset := i * 16384, size := 16384 } : Block)) with hfront
  have hlen : front.length = m := by simp [hfront]
  refine ⟨by simp [hlen], ?_, ?_, ?_⟩
  · rw [sum_block_sizes, List.map_append, List.sum_append]
    have h1 : front.map Block.size = (List.range m).map (fun _ => 16384) := by
      rw [hfront, List.map_map]
      rfl
    rw [h1, sum_map_const_range]
    simp
  · intro b hb
    rw [← hlen, List.take_left] at hb
    rw [hfront] at hb
    simp at hb
    obtain ⟨i, -, hbi⟩ := hb
    rw [← hbi]
  · intro j hj
    simp only [List.length_append, hlen, List.length_singleton] at hj
    rcases Nat.lt_or_ge j m with hjm | hjm
    · have hj1 : j < front.length := by omega
      rw [List.get_eq_getElem, List.getElem_append_left hj1]
      simp [hfront]
    · have hjeq : j = m := by omega
      have hj2 : front.length ≤ j := by omega
      rw [List.get_eq_getElem, List.getElem_append_right hj2]
      simp [hlen, hjeq]

theorem piece_init_blocks_spec (sz : Nat) (h : 0 < sz) :
    ∃ bc blocks, piece_init_blocks sz = some (bc, blocks) ∧
      bc = blocks.length ∧
      sum_block_sizes blocks = sz ∧
      (∀ b ∈ blocks.take (blocks.length - 1), b.size = DEFAULT_BLOCK_SIZE) ∧
      (∀ j, ∀ hj : j < blocks.length,
        (blocks.get ⟨j, hj⟩).offset = j * DEFAULT_BLOCK_SIZE) := by
  by_cases hmod : sz % 16384 = 0
  · have hq : ¬ sz / 16384 = 0 := by omega
    simp only [piece_init_blocks, DEFAULT_BLOCK_SIZE, hmod, if_true, if_pos rfl, hq,
      if_false, reduceIte]
    obtain ⟨h1, h2, h3, h4⟩ := blocks_shape_spec (sz / 16384 - 1) 16384
    refine ⟨sz / 16384,
      (List.range (sz / 16384 - 1)).map
          (fun i => ({ offset := i * 16384, size := 16384 } : Block)) ++
        [({ offset := (sz / 16384 - 1) * 16384, size := 16384 } : Block)],
      ?_, ?_, ?_, ?_, ?_⟩
    · rfl
    · rw [h1]
      omega
    · rw [h2]
      omega
    · intro b hb
      rw [h1] at hb
      have hm : sz / 16384 - 1 + 1 - 1 = sz / 16384 - 1 := by omega
      rw [hm] at hb
      exact h3 b hb
    · intro j hj
      exact h4 j hj
  · have hpos : 0 < sz % 16384 := by omega
    simp only [piece_init_blocks, DEFAULT_BLOCK_SIZE, hmod, if_false, reduceIte]
    obtain ⟨h1, h2, h3, h4⟩ := blocks_shape_spec (sz / 16384 + 1 - 1) (sz % 16384)
    refine ⟨sz / 16384 + 1,
      (List.range (sz / 16384 + 1 - 1)).map
          (fun i => ({ offset := i * 16384, size := 16384 } : Block)) ++
        [({ offset := (sz / 16384 + 1 - 1) * 16384, size := sz % 16384 } : Block)],
      ?_, ?_, ?_, ?_, ?_⟩
    · rfl
    · rw [h1]
      omega
    · rw [h2]
      omega
    · intro b hb
      rw [h1] at hb
      have hm : sz / 16384 + 1 - 1 + 1 - 1 = sz / 16384 + 1 - 1 := by omega
      rw [hm] at hb
      exact h3 b hb
    · intro j hj
      exact h4 j hj

/-- C5 amended: for every metainfo whose pieces string is consistent with
the sizes — its length/20 equals ceil(total_size/piece_length), positive,
with positive piece_length — torrent_file_attach_pieces succeeds and the
claimed layout holds: the piece sizes sum to total_size, all pieces except
the last have size piece_length, the last has total_size mod piece_length
if nonzero else piece_length, the piece count is the hash count, and within
every piece the block sizes sum to the piece size, all blocks except the
last have size 16384, and block j sits at offset j * 16384.  Without the
consistency hypothesis the piece count is just len(pieces)/20 and the sums
need not equal total_size (see the counterexample). -/
theorem torrent_file_attach_pieces_layout (T L : Nat) (ph : List Nat)
    (hL : 0 < L) (h20 : ph.length % 20 = 0) (hn : 0 < ph.length / 20)
    (hcons : ph.length / 20 = ceil_div T L) :
    ∃ ps, torrent_file_attach_pieces T L ph = some (ph.length / 20, ps) ∧
      ps.length = ph.length / 20 ∧
      sum_piece_sizes ps = T ∧
      (∀ p ∈ ps.take (ps.length - 1), p.size = L) ∧
      (∀ p, ps.getLast? = some p → p.size = if T % L = 0 then L else T % L) ∧
      (∀ p ∈ ps,
        p.block_count = p.blocks.length ∧
        sum_block_sizes p.blocks = p.size ∧
        (∀ b ∈ p.blocks.take (p.blocks.length - 1), b.size = DEFAULT_BLOCK_SIZE) ∧
        (∀ j, ∀ hj : j < p.blocks.length,
          (p.blocks.get ⟨j, hj⟩).offset = j * DEFAULT_BLOCK_SIZE)) := by
  have hlastpos : 0 < (if T % L = 0 then L else T % L) := by split <;> omega
  obtain ⟨bcL, blocksL, hInitL, hbcL, hsumL, htakeL, hgetL⟩ := piece_init_blocks_spec L hL
  obtain ⟨bcZ, blocksZ, hInitZ, hbcZ, hsumZ, htakeZ, hgetZ⟩ :=
    piece_init_blocks_spec (if T % L = 0 then L else T % L) hlastpos
  set n := ph.length / 20 with hn20
  have hmapall : option_map_all (List.range (n - 1))
      (fun i => (piece_init_blocks L).map (fun bb =>
        ({ index := i, size := L, hash := (ph.drop (i * 20)).take 20,
           block_count := bb.1, blocks := bb.2 } : Piece))) =
      some ((List.range (n - 1)).map (fun i =>
        ({ index := i, size := L, hash := (ph.drop (i * 20)).take 20,
           block_count := bcL, blocks := blocksL } : Piece))) := by
    apply option_map_all_eq_some
    intro i _
    rw [hInitL]
    rfl
  set front := (List.range (n - 1)).map (fun i =>
      ({ index := i, size := L, hash := (ph.drop (i * 20)).take 20,
         block_count := bcL, blocks := blocksL } : Piece)) with hfront
  set lastP :=
    ({ index := n - 1, size := (if T % L = 0 then L else T % L),
       hash := (ph.drop ((n - 1) * 20)).take 20,
       block_count := bcZ, blocks := blocksZ } : Piece) with hlastP
  have hfrontlen : front.length = n - 1 := by simp [hfront]
  refine ⟨front ++ [lastP], ?_, ?_, ?_, ?_, ?_, ?_⟩
  · simp only [torrent_file_attach_pieces, SHA_DIGEST_LENGTH, ← hn20]
    rw [if_neg (by simp [h20]), if_neg (by omega), if_neg (by omega)]
    rw [hmapall, hInitZ]
    rfl
  · simp [hfrontlen]
    omega
  · have hsz : front.map Piece.size = (List.range (n - 1)).map (fun _ => L) := by
      rw [hfront, List.map_map]
      rfl
    rw [sum_piece_sizes, List.map_append, List.sum_append, hsz, sum_map_const_range]
    have hceil := ceil_div_eq T L hL
    have hdm := Nat.div_add_mod T L
    have h2 : T / L * L = L * (T / L) := Nat.mul_comm _ _
    rw [hcons, hceil]
    simp only [hlastP, List.map_cons, List.map_nil, List.sum_cons, List.sum_nil]
    by_cases hr : T % L = 0
    · rw [if_pos hr, if_pos hr]
      have hq : 0 < T / L := by
        rw [hcons, hceil, if_pos hr] at hn
        exact hn
      have h3 : L ≤ L * (T / L) := Nat.le_mul_of_pos_right L hq
      have h4 : (T / L - 1) * L = T / L * L - 1 * L := Nat.sub_mul _ _ _
      omega
    · rw [if_neg hr, if_neg hr]
      simp only [Nat.add_sub_cancel]
      omega
  · intro p hp
    simp only [List.length_append, hfrontlen, List.length_singleton] at hp
    have htk : n - 1 + 1 - 1 = front.length := by omega
    rw [htk, List.take_left] at hp
    rw [hfront] at hp
    simp at hp
    obtain ⟨i, -, hpi⟩ := hp
    rw [← hpi]
  · intro p hp
    rw [List.getLast?_concat] at hp
    cases hp
    rfl
  · intro p hp
    rcases List.mem_append.mp hp with hp | hp
    · rw [hfront] at hp
      simp at hp
      obtain ⟨i, -, hpi⟩ := hp
      rw [← hpi]
      exact ⟨hbcL, hsumL, htakeL, hgetL⟩
    · rw [List.mem_singleton] at hp
      rw [hp]
      exact ⟨hbcZ, hsumZ, htakeZ, hgetZ⟩

/-- Witness for the amended C5 at a consistent metainfo: total_size 100,
piece_length 32, four 20-byte hashes (ceil(100/32) = 4). -/
theorem torrent_file_attach_pieces_layout_witness :
    ∃ ps, torrent_file_attach_pieces 100 32 (List.replicate 80 65) =
        some ((List.replicate 80 65 : List Nat).length / 20, ps) ∧
      ps.length = (List.replicate 80 65 : List Nat).length / 20 ∧
      sum_piece_sizes ps = 100 ∧
      (∀ p ∈ ps.take (ps.length - 1), p.size = 32) ∧
      (∀ p, ps.getLast? = some p → p.size = if 100 % 32 = 0 then 32 else 100 % 32) ∧
      (∀ p ∈ ps,
        p.block_count = p.blocks.length ∧
        sum_block_sizes p.blocks = p.size ∧
        (∀ b ∈ p.blocks.take (p.blocks.length - 1), b.size = DEFAULT_BLOCK_SIZE) ∧
        (∀ j, ∀ hj : j < p.blocks.length,
          (p.blocks.get ⟨j, hj⟩).offset = j * DEFAULT_BLOCK_SIZE)) :=
  torrent_file_attach_pieces_layout 100 32 (List.replicate 80 65)
    (by decide) (by decide) (by decide) (by decide)

/-- C5 counterexample: a metainfo with length 100, piece length 32 but only
ONE 20-byte hash (pieces string of 20 bytes) is built successfully by
torrent_file_new — nothing checks num_pieces against
ceil(total_size/piece_length) — and the result violates the claim: the
piece sizes sum to 4, not total_size = 100, and the piece count is 1, not
ceil(100/32) = 4. -/
theorem torrent_file_new_inconsistent_counterexample :
    torrent_file_new
        [100, 52, 58, 105, 110, 102, 111, 100, 54, 58, 108, 101, 110, 103, 116, 104,
         105, 49, 48, 48, 101, 52, 58, 110, 97, 109, 101, 53, 58, 116, 46, 116, 120,
         116, 49, 50, 58, 112, 105, 101, 99, 101, 32, 108, 101, 110, 103, 116, 104,
         105, 51, 50, 101, 54, 58, 112, 105, 101, 99, 101, 115, 50, 48, 58, 65, 65,
         65, 65, 65, 65, 65, 65, 65, 65, 65, 65, 65, 65, 65, 65, 65, 65, 65, 65, 101,
         101] =
      some { num_pieces := 1, file_size := 100, piece_length := 32,
             name := [116, 46, 116, 120, 116],
             pieces := [{ index := 0, size := 4,
                          hash := [65, 65, 65, 65, 65, 65, 65, 65, 65, 65, 65, 65, 65,
                                   65, 65, 65, 65, 65, 65, 65],
                          block_count := 1, blocks := [{ size := 4, offset := 0 }] }] } ∧
    sum_piece_sizes
      [({ index := 0, size := 4,
          hash := [65, 65, 65, 65, 65, 65, 65, 65, 65, 65, 65, 65, 65, 65, 65, 65,
                   65, 65, 65, 65],
          block_count := 1, blocks := [{ size := 4, offset := 0 }] } : Piece)] = 4 ∧
    (4 : Nat) ≠ 100 ∧
    ceil_div 100 32 = 4 ∧
    (1 : Nat) ≠ 4 := by
  refine ⟨?_, by decide, by decide, by decide, by decide⟩
  simp [torrent_file_new, decode_bencode, decode_bencode_inner, decode_dict_items,
    decode_bencoded_string, decode_bencoded_integer, source_contains, strtol,
    spacePrefixLen, is_space, takeDigits, is_digit, is_bencoded_int, digitsVal,
    clampLong, LONG_MAX, LONG_MIN, get_dict_key, infoKey, lengthKey, nameKey,
    pieceLengthKey, piecesKey, torrent_file_from_bcoded, sizeTofLong,
    torrent_file_attach_pieces, SHA_DIGEST_LENGTH, piece_init_blocks,
    DEFAULT_BLOCK_SIZE, option_map_all]
